import Mathlib

/-!
Verification development for the OGER entity-recognition core.

Shallow embedding of the term index, matching engine, abbreviation
learner (oger/er/entity_recognition.py, oger/er/term_tokenization.py)
and the span-resolution postfilters (oger/post/submatches.py).

Python dicts are modelled as insertion-ordered association lists with
unique keys; Python sets of hashable values as duplicate-free lists
(membership is what matters).  Python sequences of characters are
modelled over Lean Char lists; the Unicode word-character class of the
token pattern is modelled by Char.isAlpha / Char.isDigit, which agrees
with the Python regex on the ASCII inputs exercised here.
-/

namespace OGER

/-! ### Association-list primitives modelling Python dict and set -/

/-- Lookup in a Python dict (association list with unique keys). -/
def dGet {α β : Type} [DecidableEq α] (d : List (α × β)) (k : α) : Option β :=
  match d with
  | [] => none
  | (k1, v) :: rest => if k1 = k then some v else dGet rest k

/-- Assignment d[k] = v: update in place if the key exists (CPython keeps
the insertion position), otherwise append. -/
def dSet {α β : Type} [DecidableEq α] (d : List (α × β)) (k : α) (v : β) :
    List (α × β) :=
  match d with
  | [] => [(k, v)]
  | (k1, v1) :: rest => if k1 = k then (k, v) :: rest else (k1, v1) :: dSet rest k v

/-- Removal d.pop(k, None): drop the key if present. -/
def dPop {α β : Type} [DecidableEq α] (d : List (α × β)) (k : α) : List (α × β) :=
  match d with
  | [] => []
  | (k1, v1) :: rest => if k1 = k then rest else (k1, v1) :: dPop rest k

/-- Set insertion s.add(x) for a set modelled as a duplicate-free list. -/
def sInsert {α : Type} [DecidableEq α] (s : List α) (x : α) : List α :=
  if x ∈ s then s else s ++ [x]

/-- Sorted insertion, used for the ascending length tuples. -/
def insertAsc (x : Nat) : List Nat → List Nat
  | [] => [x]
  | y :: ys => if x ≤ y then x :: y :: ys else y :: insertAsc x ys

/-- Ascending sort, modelling Python sorted() on length sets. -/
def sortAsc (l : List Nat) : List Nat := l.foldr insertAsc []

/-! ### TermTokenizer (oger/er/term_tokenization.py)

The token pattern is a maximal run of digits or a maximal run of
word characters that are neither digits nor underscore; with
abbreviation detection, a single parenthesis is also a token. -/

/-- Character classes of the token pattern: digit runs and letter
runs are the two token-forming classes. -/
inductive TkClass where
  | digit
  | letter
deriving DecidableEq

/-- Class of a character under the token pattern, none for characters
that only separate tokens. -/
def charClass (c : Char) : Option TkClass :=
  if c.isDigit then some TkClass.digit
  else if c.isAlpha then some TkClass.letter
  else none

/-- Close the pending run, if any, producing its token triple; i is
the offset one past the last character of the run. -/
def flushRun (cur : Option (TkClass × Nat × List Char)) (i : Nat) :
    List (String × Nat × Nat) :=
  match cur with
  | none => []
  | some (_, s, run) => [(String.mk run, s, i)]

/-- Left-to-right scanner equivalent to findall of the token pattern:
a maximal run of characters of one class is one token; with useParens
(the abbrev_token pattern) a single parenthesis is its own token;
every other character only ends the pending run. -/
def spanTokGo (useParens : Bool) : List Char → Nat →
    Option (TkClass × Nat × List Char) → List (String × Nat × Nat)
  | [], i, cur => flushRun cur i
  | c :: cs, i, cur =>
    match charClass c with
    | some k =>
      match cur with
      | some (k0, s, run) =>
          if k = k0 then
            spanTokGo useParens cs (i + 1) (some (k0, s, run ++ [c]))
          else
            flushRun cur i ++ spanTokGo useParens cs (i + 1) (some (k, i, [c]))
      | none => spanTokGo useParens cs (i + 1) (some (k, i, [c]))
    | none =>
      if useParens && (c = '(' || c = ')') then
        flushRun cur i ++
          ((String.mk [c], i, i + 1) :: spanTokGo useParens cs (i + 1) none)
      else
        flushRun cur i ++ spanTokGo useParens cs (i + 1) none

/-- TermTokenizer.span_tokenize_words on a sentence string. -/
def span_tokenize_words (useParens : Bool) (text : String) :
    List (String × Nat × Nat) :=
  spanTokGo useParens text.toList 0 none

/-- TermTokenizer.tokenize_words: the bare token list. -/
def tokenize_words (useParens : Bool) (text : String) : List String :=
  (span_tokenize_words useParens text).map (fun t => t.1)

/-! ### Normalizer cascade (oger/er/term_normalization.py) -/

/-- Lowercase normalizer (load name lowercase, Python str.lower),
modelled characterwise; agrees with Python on the ASCII inputs used. -/
def lowercase (s : String) : String := String.mk (s.toList.map Char.toLower)

/-- Configuration scalars the recognizer consumes: the
abbreviation-detection flag (selects the tokenizer pattern and the
match hook) and the normalizer cascade. -/
structure ERConfig where
  abbrevDetection : Bool
  normalizers : List (String → String)

/-- Cascade application to one token (EntityRecognizer._normalize). -/
def normalizeOne (cfg : ERConfig) (t : String) : String :=
  cfg.normalizers.foldl (fun x f => f x) t

/-- Tokenwise normalization (EntityRecognizer.normalize). -/
def normalize (cfg : ERConfig) (toks : List String) : List String :=
  toks.map (normalizeOne cfg)

/-- Stopword import: each configured stopword is tokenized and
normalized; membership in the resulting list models membership in the
frozenset built by EntityRecognizer.import_stopwords. -/
def import_stopwords (cfg : ERConfig) (stopwords : List String) :
    List (List String) :=
  stopwords.map (fun w => normalize cfg (tokenize_words cfg.abbrevDetection w))

/-- Python slice l[i:j]. -/
def sliceList {α : Type} (l : List α) (i j : Nat) : List α :=
  (l.drop i).take (j - i)

/-- EntityRecognizer.em_filter: enforce exact match for stopwords.  If
the normalized slice is a stopword, the exact (unnormalized) slice is
used as lookup key instead. -/
def em_filter (stopwords : List (List String)) (norm exact : List String)
    (i j : Nat) : List String :=
  let n := sliceList norm i j
  if n ∈ stopwords then sliceList exact i j else n

/-! ### Recognizer state and the abbreviation learner -/

/-- Term entry: the tuple of 5 standard fields plus extra fields. -/
abbrev Entry := List String

/-- Undo information for one hash-table slot of one registration:
either the key was newly created (pop on undo) or it held a previous
value (restore it on undo).  No change is recorded as none at the
use sites. -/
inductive UndoMod (β : Type) where
  | pop
  | restore (backup : β)
deriving DecidableEq

/-- Undo signature of one registered short form: the three recorded
sub-mutations (stopword addition, first-token slot, full-term slot). -/
structure UndoSig where
  stpw : Option (List String)
  first : Option (UndoMod (List Nat))
  full : Option (UndoMod (List Entry))
deriving DecidableEq

/-- Mutable state of an AbbrevDetector: the stopword set, the two index
maps and the abbreviation registry of undo signatures. -/
structure ERState where
  stopwords : List (List String)
  term_first : List (String × List Nat)
  full_terms : List (List String × List Entry)
  abbrevs : List (List String × UndoSig)
deriving DecidableEq

/-- Python x or y for the registry merge; the recorded values are
either None or nonempty data, so Python truthiness is first-is-some. -/
def pyOr {β : Type} (p q : Option β) : Option β :=
  match p with
  | some x => some x
  | none => q

/-- AbbrevDetector.update_registry: merge the new change signature with
any previous one for the same short form, keeping the older record. -/
def update_registry (st : ERState) (toks : List String)
    (stpw : Option (List String)) (first : Option (UndoMod (List Nat)))
    (full : Option (UndoMod (List Entry))) : ERState :=
  match dGet st.abbrevs toks with
  | some prev =>
      { st with
          abbrevs := dSet st.abbrevs toks
            ⟨pyOr prev.stpw stpw, pyOr prev.first first, pyOr prev.full full⟩ }
  | none =>
      { st with abbrevs := dSet st.abbrevs toks ⟨stpw, first, full⟩ }

/-- AbbrevDetector.register_abbrev: add the short form to the stopword
set, to the first-token hash (keyed by the normalized first token) and
to the full-term hash (keyed by the exact tokens), recording the three
sub-mutations.  The set-union size test of the Python code is modelled
by the all-members test, equivalent for duplicate-free entry tuples. -/
def register_abbrev (st : ERState) (toks norm : List String)
    (entries : List Entry) : ERState :=
  let mod_stopword : Option (List String) :=
    if norm ∈ st.stopwords then none else some norm
  let stopwords1 :=
    if norm ∈ st.stopwords then st.stopwords else st.stopwords ++ [norm]
  let k := norm.headD ""
  let firstPair : Option (UndoMod (List Nat)) × List (String × List Nat) :=
    match dGet st.term_first k with
    | none => (some UndoMod.pop, dSet st.term_first k [toks.length])
    | some backup =>
        if toks.length ∈ backup then (none, st.term_first)
        else (some (UndoMod.restore backup),
              dSet st.term_first k (sortAsc (toks.length :: backup)))
  let fullPair : Option (UndoMod (List Entry)) × List (List String × List Entry) :=
    match dGet st.full_terms toks with
    | none => (some UndoMod.pop, dSet st.full_terms toks entries)
    | some backup =>
        if entries.all (fun e => decide (e ∈ backup)) then (none, st.full_terms)
        else (some (UndoMod.restore backup),
              dSet st.full_terms toks
                (backup ++ entries.filter (fun e => decide (e ∉ backup))))
  let st1 : ERState :=
    { st with stopwords := stopwords1,
              term_first := firstPair.2,
              full_terms := fullPair.2 }
  update_registry st1 toks mod_stopword firstPair.1 fullPair.1

/-- Undo of one registry item inside AbbrevDetector.clear_abbrev_cache.
Note that the first-token undo is keyed by the exact first token
toks[0], while register_abbrev keyed the mutation by the normalized
first token norm[0]. -/
def undoOne (st : ERState) (item : List String × UndoSig) : ERState :=
  let toks := item.1
  let stopwords1 :=
    match item.2.stpw with
    | some n => st.stopwords.erase n
    | none => st.stopwords
  let term_first1 :=
    match item.2.first with
    | some UndoMod.pop => dPop st.term_first (toks.headD "")
    | some (UndoMod.restore b) => dSet st.term_first (toks.headD "") b
    | none => st.term_first
  let full_terms1 :=
    match item.2.full with
    | some UndoMod.pop => dPop st.full_terms toks
    | some (UndoMod.restore b) => dSet st.full_terms toks b
    | none => st.full_terms
  { st with stopwords := stopwords1, term_first := term_first1,
            full_terms := full_terms1 }

/-- AbbrevDetector.clear_abbrev_cache, also reachable as reset(): walk
the registry, undo every recorded modification, then clear it. -/
def clear_abbrev_cache (st : ERState) : ERState :=
  let st1 := st.abbrevs.foldl undoOne st
  { st1 with abbrevs := [] }

/-- AbbrevDetector._match_hook: after a match ending at token index j,
if tokens j and j plus 2 are literally the parentheses, register the
enclosed single token as an abbreviation for the matched entries. -/
def match_hook (cfg : ERConfig) (st : ERState) (found : List Entry)
    (toks normalized : List String) (j : Nat) : ERState :=
  if cfg.abbrevDetection then
    match toks.get? j, toks.get? (j + 2) with
    | some l, some r =>
        if l = "(" ∧ r = ")" then
          register_abbrev st [toks.getD (j + 1) ""] [normalized.getD (j + 1) ""]
            found
        else st
    | _, _ => st
  else st

/-! ### Matching engine (EntityRecognizer.recognize_entities)

The generator is modelled as a function returning the emitted match
list together with the state after the abbreviation side effects; the
state is threaded because registrations during a sentence are visible
to later lookups in the same sentence. -/

/-- Inner loop over the candidate lengths of one start position.  The
Python break on j exceeding the sentence length ends the loop for this
position (lengths are kept ascending). -/
def scan_lengths (cfg : ERConfig) (toks normalized : List String)
    (starts stops : List Nat) (i : Nat) :
    List Nat → ERState → List ((Nat × Nat) × Entry) × ERState
  | [], st => ([], st)
  | L :: Ls, st =>
    if i + L > normalized.length then ([], st)
    else
      let candidate := em_filter st.stopwords normalized toks i (i + L)
      match dGet st.full_terms candidate with
      | some ms =>
          let position := (starts.getD i 0, stops.getD (i + L - 1) 0)
          let found := ms.map (fun entry => (position, entry))
          let st1 := match_hook cfg st ms toks normalized (i + L)
          let res := scan_lengths cfg toks normalized starts stops i Ls st1
          (found ++ res.1, res.2)
      | none => scan_lengths cfg toks normalized starts stops i Ls st

/-- Outer loop over the token positions of the sentence. -/
def scan_positions (cfg : ERConfig) (toks normalized : List String)
    (starts stops : List Nat) :
    List Nat → ERState → List ((Nat × Nat) × Entry) × ERState
  | [], st => ([], st)
  | i :: ks, st =>
      let word := normalized.getD i ""
      let lens := (dGet st.term_first word).getD []
      let res1 := scan_lengths cfg toks normalized starts stops i lens st
      let res2 := scan_positions cfg toks normalized starts stops ks res1.2
      (res1.1 ++ res2.1, res2.2)

/-- EntityRecognizer.recognize_entities over one sentence string.  A
sentence without tokens takes the early-return branch of the
ValueError handler and yields nothing. -/
def recognize_entities (cfg : ERConfig) (st : ERState) (sentence : String) :
    List ((Nat × Nat) × Entry) × ERState :=
  let spans := span_tokenize_words cfg.abbrevDetection sentence
  match spans with
  | [] => ([], st)
  | _ =>
    let toks := spans.map (fun t => t.1)
    let starts := spans.map (fun t => t.2.1)
    let stops := spans.map (fun t => t.2.2)
    let normalized := normalize cfg toks
    scan_positions cfg toks normalized starts stops (List.range toks.length) st

/-! ### Termlist loading (EntityRecognizer.load_termlist_from_file) -/

/-- EntityRecognizer._cached_entry: reuse the fields of the previous
row where they repeat verbatim; zip truncates to the shorter tuple. -/
def cached_entry (previous new : List String) : List String :=
  (previous.zip new).map (fun p => if p.1 = p.2 then p.1 else p.2)

/-- EntityRecognizer.termlist_format_6: column permutation of the
6-column format; a row without the 6 standard columns raises an
IndexError, modelled as an error value. -/
def termlist_format_6 (fields : List String) :
    Except String (String × List String × List String) :=
  match fields.get? 0, fields.get? 1, fields.get? 2, fields.get? 3,
      fields.get? 4, fields.get? 5 with
  | some f0, some f1, some f2, some f3, some f4, some f5 =>
      Except.ok (f1, [f2, f3, f4, f0, f5], fields.drop 6)
  | _, _, _, _, _, _ => Except.error "IndexError: list index out of range"

/-- Accumulator of the loading loop: the two maps under construction
and the entry tuple carried from the previous row. -/
structure LoadAcc where
  term_first : List (String × List Nat)
  full_terms : List (List String × List Entry)
  entry : Entry
deriving DecidableEq

/-- One iteration of the loading loop.  An empty term field only skips
the first-token update (the IndexError handler logs a warning without
a continue); the full-term update still runs.  A field-count mismatch
after the truncating zip is the hard ValueError. -/
def process_row (cfg : ERConfig) (stopwords : List (List String))
    (parser : List String → Except String (String × List String × List String))
    (n_fields : Nat) (acc : LoadAcc) (fields : List String) :
    Except String LoadAcc :=
  match parser fields with
  | Except.error e => Except.error e
  | Except.ok (term, std, extra) =>
    let toks := tokenize_words cfg.abbrevDetection term
    let norm := normalize cfg toks
    let termKey := em_filter stopwords norm toks 0 norm.length
    let term_first1 :=
      match norm.head? with
      | none => acc.term_first
      | some k =>
          match dGet acc.term_first k with
          | some lens => dSet acc.term_first k (sInsert lens termKey.length)
          | none => dSet acc.term_first k [termKey.length]
    let entry1 := cached_entry acc.entry (std ++ extra)
    if entry1.length ≠ n_fields then
      Except.error "Unexpected number of TSV fields"
    else
      let full_terms1 :=
        match dGet acc.full_terms termKey with
        | some es => dSet acc.full_terms termKey (sInsert es entry1)
        | none => dSet acc.full_terms termKey [entry1]
      Except.ok ⟨term_first1, full_terms1, entry1⟩

/-- Loading loop over the parsed rows. -/
def load_rows (cfg : ERConfig) (stopwords : List (List String))
    (parser : List String → Except String (String × List String × List String))
    (n_fields : Nat) : List (List String) → LoadAcc → Except String LoadAcc
  | [], acc => Except.ok acc
  | row :: rest, acc =>
      match process_row cfg stopwords parser n_fields acc row with
      | Except.error e => Except.error e
      | Except.ok acc1 => load_rows cfg stopwords parser n_fields rest acc1

/-- EntityRecognizer.load_termlist_from_file: run the loop from the
initial accumulator (blank carried entry of n_fields fields), then
sort each length set ascending and freeze the maps. -/
def load_termlist_from_file (cfg : ERConfig) (stopwords : List (List String))
    (parser : List String → Except String (String × List String × List String))
    (n_fields : Nat) (rows : List (List String)) :
    Except String (List (String × List Nat) × List (List String × List Entry)) :=
  match load_rows cfg stopwords parser n_fields rows
      ⟨[], [], List.replicate n_fields ""⟩ with
  | Except.error e => Except.error e
  | Except.ok acc =>
      Except.ok (acc.term_first.map (fun p => (p.1, sortAsc p.2)), acc.full_terms)

/-! ### Span resolver (oger/post/submatches.py) -/

/-- Annotation span with an entity label; offsets are half open. -/
structure Ent where
  start : Nat
  stop : Nat
  label : String
deriving DecidableEq

/-- Default entity for out-of-range list access. -/
def dEnt : Ent := ⟨0, 0, ""⟩

/-- The function _contains: strict containment of b in a. -/
def containsEnt (a b : Ent) : Bool :=
  decide ((a.start ≤ b.start ∧ b.stop < a.stop) ∨
          (a.start < b.start ∧ b.stop ≤ a.stop))

/-- The function _equals: offsets coincide. -/
def equalsEnt (a b : Ent) : Bool :=
  decide (a.start = b.start ∧ a.stop = b.stop)

/-- Loop of the generator _submatches, carrying the reference entity,
the indices of the run of entities with the reference offsets, and the
index of the next entity. -/
def submatchesAux (refEnt : Ent) (refIs : List Nat) (i : Nat) :
    List Ent → List Nat
  | [] => []
  | e :: rest =>
    if containsEnt refEnt e then i :: submatchesAux refEnt refIs (i + 1) rest
    else if containsEnt e refEnt then refIs ++ submatchesAux e [i] (i + 1) rest
    else if equalsEnt e refEnt then submatchesAux refEnt (refIs ++ [i]) (i + 1) rest
    else submatchesAux e [i] (i + 1) rest

/-- The generator _submatches: indices of entities contained in
another entity.  The first entity only initializes the reference. -/
def submatches : List Ent → List Nat
  | [] => []
  | e :: rest => submatchesAux e [0] 1 rest

/-- Loop of the generator _clusters: the current cluster holds pairs of
index and span length; a new entity whose start is at or beyond the
running maximal end closes the cluster. -/
def clustersAux (cluster : List (Nat × Nat)) (current_end i : Nat) :
    List Ent → List (List (Nat × Nat))
  | [] => if cluster.length > 1 then [cluster] else []
  | e :: rest =>
    if e.start ≥ current_end then
      (if cluster.length > 1 then [cluster] else []) ++
        clustersAux [(i, e.stop - e.start)] (max current_end e.stop) (i + 1) rest
    else
      clustersAux (cluster ++ [(i, e.stop - e.start)]) (max current_end e.stop)
        (i + 1) rest

/-- The generator _clusters: clusters of more than one overlapping
entity, as lists of pairs of index and span length. -/
def clustersFn (entities : List Ent) : List (List (Nat × Nat)) :=
  clustersAux [] 0 0 entities

/-- Python max over the lengths of a cluster; the fold with base 0
agrees with max on the nonempty clusters the code produces. -/
def maxLen (cluster : List (Nat × Nat)) : Nat :=
  (cluster.map Prod.snd).foldl max 0

/-- Removables of one cluster: the indices of all entities shorter
than the longest one of the cluster. -/
def pickShort (cluster : List (Nat × Nat)) : List Nat :=
  (cluster.filter (fun p => decide (p.2 ≠ maxLen cluster))).map Prod.fst

/-- The generator _crossmatches: inside every cluster, the indices of
all entities shorter than the longest one. -/
def crossmatches (entities : List Ent) : List Nat :=
  (clustersFn entities).flatMap pickShort

/-- The filter _rm_overlapping: keep the entities whose index is not
among the removables of the selected policy (sub is the submatch
policy, otherwise the overlap policy). -/
def rm_overlapping (entities : List Ent) (sub : Bool) : List Ent :=
  let removables := if sub then submatches entities else crossmatches entities
  (entities.enum.filter (fun p => decide (p.1 ∉ removables))).map Prod.snd

/-- Sentence-level effect of remove_submatches (type agnostic). -/
def remove_submatches (entities : List Ent) : List Ent :=
  rm_overlapping entities true

/-- Sentence-level effect of remove_overlaps (type agnostic). -/
def remove_overlaps (entities : List Ent) : List Ent :=
  rm_overlapping entities false

/-! ### Concrete configurations and states used by the claims -/

/-- Recognizer configuration without abbreviation detection and with
the default lowercase normalizer. -/
def cfgPlain : ERConfig := ⟨false, [lowercase]⟩

/-- Recognizer configuration with abbreviation detection and the
default lowercase normalizer. -/
def cfgAbbr : ERConfig := ⟨true, [lowercase]⟩

/-- Stopword set built from the configured list containing only is. -/
def swIs : List (List String) := import_stopwords cfgPlain ["is"]

/-- Term entry of the single term is in the C5 scenario. -/
def entryIs : Entry := ["T", "P", "R", "x", "C"]

/-- Engine state after loading the one-term list consisting of is. -/
def stIs : ERState := ⟨swIs, [("is", [1])], [(["is"], [entryIs])], []⟩

/-- Term entry of the dictionary term Diabetes Mellitus. -/
def entryDM : Entry := ["T", "DiaMel", "res", "id", "cui"]

/-- Engine state after loading the one-term list consisting of
Diabetes Mellitus, with no stopwords and abbreviation detection on. -/
def stDM : ERState :=
  ⟨[], [("diabetes", [2])], [(["diabetes", "mellitus"], [entryDM])], []⟩

/-- State after the abbreviation-defining sentence of the C6 document. -/
def stDMdoc : ERState :=
  (recognize_entities cfgAbbr stDM "Diabetes Mellitus (DM)").2

/-- State after the second sentence of the C6 document. -/
def stDMdoc2 : ERState :=
  (recognize_entities cfgAbbr stDMdoc "DM is treated").2

/-! ### Helper lemmas -/

theorem ite_self_snd (p : String × String) :
    (if p.1 = p.2 then p.1 else p.2) = p.2 := by
  by_cases h : p.1 = p.2 <;> simp [h]

/-- The function _cached_entry never alters a field: it returns the new
fields verbatim, truncated by the zip to the arity of the previous
entry (the comparison only enables object reuse in Python). -/
theorem cached_entry_keeps_new (previous new : List String) :
    cached_entry previous new = (previous.zip new).map Prod.snd := by
  unfold cached_entry
  congr 1
  funext p
  exact ite_self_snd p

theorem zip_snd_take : ∀ (p n : List String),
    (p.zip n).map Prod.snd = n.take p.length
  | [], _ => rfl
  | _ :: _, [] => rfl
  | _ :: ps, x :: ns => by
      simpa using zip_snd_take ps ns

theorem dGet_dSet_self {α β : Type} [DecidableEq α] :
    ∀ (d : List (α × β)) (k : α) (v : β), dGet (dSet d k v) k = some v
  | [], k, v => by simp [dGet, dSet]
  | (k1, v1) :: rest, k, v => by
      by_cases h : k1 = k
      · simp [dGet, dSet, h]
      · simp [dGet, dSet, h, dGet_dSet_self rest k v]

theorem dGet_dSet_ne {α β : Type} [DecidableEq α] :
    ∀ (d : List (α × β)) (k k2 : α) (v : β), k2 ≠ k →
      dGet (dSet d k v) k2 = dGet d k2
  | [], k, k2, v, h => by simp [dGet, dSet, h, Ne.symm h]
  | (k1, v1) :: rest, k, k2, v, h => by
      by_cases h1 : k1 = k
      · simp [dGet, dSet, h1, h, Ne.symm h]
      · by_cases h2 : k1 = k2 <;>
          simp [dGet, dSet, h1, h2, h, Ne.symm h, dGet_dSet_ne rest k k2 v h]

theorem mem_sInsert_self {α : Type} [DecidableEq α] (s : List α) (x : α) :
    x ∈ sInsert s x := by
  by_cases h : x ∈ s <;> simp [sInsert, h]

theorem mem_sInsert_of_mem {α : Type} [DecidableEq α] (s : List α) (x y : α)
    (h : y ∈ s) : y ∈ sInsert s x := by
  by_cases hx : x ∈ s <;> simp [sInsert, hx, h]

theorem mem_insertAsc (x y : Nat) :
    ∀ l : List Nat, y ∈ insertAsc x l ↔ y = x ∨ y ∈ l
  | [] => by simp [insertAsc]
  | z :: zs => by
      by_cases h : x ≤ z
      · simp [insertAsc, h]
      · simp [insertAsc, h, mem_insertAsc x y zs]
        tauto

theorem mem_sortAsc (y : Nat) : ∀ l : List Nat, y ∈ sortAsc l ↔ y ∈ l
  | [] => by simp [sortAsc]
  | z :: zs => by
      have h := mem_sortAsc y zs
      simp only [sortAsc, List.foldr] at h ⊢
      rw [mem_insertAsc]
      simp [h]

theorem dGet_map_second {α β γ : Type} [DecidableEq α] (g : β → γ) :
    ∀ (d : List (α × β)) (k : α),
      dGet (d.map (fun p => (p.1, g p.2))) k = (dGet d k).map g
  | [], k => by simp [dGet]
  | (k1, v1) :: rest, k => by
      by_cases h : k1 = k <;> simp [dGet, h, dGet_map_second g rest k]

/-! ### Index-length invariant (claim C2) -/

/-- Some first-token entry records the length n. -/
def lenRecorded (tf : List (String × List Nat)) (n : Nat) : Prop :=
  ∃ f lens, dGet tf f = some lens ∧ n ∈ lens

/-- Amended index invariant: the length of every full-term key is
recorded somewhere in the first-token map (namely under the normalized
first token of the producing term, which need not equal the first
token of the key itself). -/
def indexLenInvariant (tf : List (String × List Nat))
    (ft : List (List String × List Entry)) : Prop :=
  ∀ k entries, dGet ft k = some entries → lenRecorded tf k.length

/-- Pointwise extension order on first-token maps: every recorded set
stays present and only grows. -/
def tfLe (tf tf2 : List (String × List Nat)) : Prop :=
  ∀ f lens, dGet tf f = some lens →
    ∃ lens2, dGet tf2 f = some lens2 ∧ ∀ x ∈ lens, x ∈ lens2

theorem tfLe_refl (tf : List (String × List Nat)) : tfLe tf tf :=
  fun _ lens h => ⟨lens, h, fun _ hx => hx⟩

theorem tfLe_dSet_of_get (tf : List (String × List Nat)) (k : String)
    (lens v : List Nat) (hget : dGet tf k = some lens)
    (hsub : ∀ x ∈ lens, x ∈ v) : tfLe tf (dSet tf k v) := by
  intro f lens0 h0
  by_cases hf : f = k
  · subst hf
    rw [hget] at h0
    cases h0
    exact ⟨v, dGet_dSet_self tf f v, hsub⟩
  · exact ⟨lens0, (dGet_dSet_ne tf k f v hf).trans h0, fun x hx => hx⟩

theorem tfLe_dSet_of_none (tf : List (String × List Nat)) (k : String)
    (v : List Nat) (hget : dGet tf k = none) : tfLe tf (dSet tf k v) := by
  intro f lens0 h0
  by_cases hf : f = k
  · subst hf
    rw [hget] at h0
    cases h0
  · exact ⟨lens0, (dGet_dSet_ne tf k f v hf).trans h0, fun x hx => hx⟩

theorem lenRecorded_mono (tf tf2 : List (String × List Nat)) (n : Nat)
    (hle : tfLe tf tf2) (h : lenRecorded tf n) : lenRecorded tf2 n := by
  obtain ⟨f, lens, hget, hmem⟩ := h
  obtain ⟨lens2, hget2, hsub⟩ := hle f lens hget
  exact ⟨f, lens2, hget2, hsub n hmem⟩

/-- Row parsers of the three termlist formats. -/
abbrev RowParser := List String → Except String (String × List String × List String)

/-- The surface-term field of the row tokenizes to at least one token
(the precondition under which a row updates both maps). -/
def rowTermNonempty (cfg : ERConfig) (parser : RowParser)
    (fields : List String) : Prop :=
  ∀ term std extra, parser fields = Except.ok (term, std, extra) →
    tokenize_words cfg.abbrevDetection term ≠ []

theorem process_row_inv (cfg : ERConfig) (sw : List (List String))
    (parser : RowParser) (n_fields : Nat) (acc : LoadAcc)
    (fields : List String) (acc2 : LoadAcc)
    (hrow : rowTermNonempty cfg parser fields)
    (hpr : process_row cfg sw parser n_fields acc fields = Except.ok acc2)
    (hinv : indexLenInvariant acc.term_first acc.full_terms) :
    indexLenInvariant acc2.term_first acc2.full_terms := by
  unfold process_row at hpr
  cases hp : parser fields with
  | error e => rw [hp] at hpr; cases hpr
  | ok res =>
    obtain ⟨term, std, extra⟩ := res
    rw [hp] at hpr
    simp only at hpr
    have hne : tokenize_words cfg.abbrevDetection term ≠ [] := hrow term std extra hp
    set toks := tokenize_words cfg.abbrevDetection term with htoks
    set norm := normalize cfg toks with hnorm
    set termKey := em_filter sw norm toks 0 norm.length with hkey
    have hnne : norm ≠ [] := by
      intro h
      exact hne (by simpa [hnorm, normalize] using congrArg List.length h)
    obtain ⟨k0, norm1, hk0⟩ : ∃ k0 norm1, norm = k0 :: norm1 := by
      cases hh : norm with
      | nil => exact absurd hh hnne
      | cons a b => exact ⟨a, b, rfl⟩
    rw [hk0] at hpr
    simp only [List.head?] at hpr
    split at hpr
    · cases hpr
    · rename_i hlen
      cases hpr
      intro k2 es2 hget2
      simp only at hget2 ⊢
      have htf : tfLe acc.term_first
          (match dGet acc.term_first k0 with
            | some lens => dSet acc.term_first k0 (sInsert lens termKey.length)
            | none => dSet acc.term_first k0 [termKey.length]) := by
        cases hg : dGet acc.term_first k0 with
        | some lens =>
            simp only [hg]
            exact tfLe_dSet_of_get acc.term_first k0 lens _ hg
              (fun x hx => mem_sInsert_of_mem lens termKey.length x hx)
        | none =>
            simp only [hg]
            exact tfLe_dSet_of_none acc.term_first k0 _ hg
      have hrec : lenRecorded
          (match dGet acc.term_first k0 with
            | some lens => dSet acc.term_first k0 (sInsert lens termKey.length)
            | none => dSet acc.term_first k0 [termKey.length]) termKey.length := by
        cases hg : dGet acc.term_first k0 with
        | some lens =>
            simp only [hg]
            exact ⟨k0, sInsert lens termKey.length, dGet_dSet_self _ _ _,
              mem_sInsert_self lens termKey.length⟩
        | none =>
            simp only [hg]
            exact ⟨k0, [termKey.length], dGet_dSet_self _ _ _, by simp⟩
      by_cases hk2 : k2 = termKey
      · subst hk2
        exact hrec
      · have hsame : dGet acc.full_terms k2 = some es2 := by
          cases hg : dGet acc.full_terms termKey with
          | some es =>
              rw [hg] at hget2
              rw [← hget2]
              exact (dGet_dSet_ne acc.full_terms termKey k2 _ hk2).symm
          | none =>
              rw [hg] at hget2
              rw [← hget2]
              exact (dGet_dSet_ne acc.full_terms termKey k2 _ hk2).symm
        exact lenRecorded_mono acc.term_first _ k2.length htf
          (hinv k2 es2 hsame)

theorem load_rows_inv (cfg : ERConfig) (sw : List (List String))
    (parser : RowParser) (n_fields : Nat) :
    ∀ (rows : List (List String)) (acc acc2 : LoadAcc),
      (∀ r ∈ rows, rowTermNonempty cfg parser r) →
      load_rows cfg sw parser n_fields rows acc = Except.ok acc2 →
      indexLenInvariant acc.term_first acc.full_terms →
      indexLenInvariant acc2.term_first acc2.full_terms
  | [], acc, acc2, _, hld, hinv => by
      cases hld
      exact hinv
  | row :: rest, acc, acc2, hrows, hld, hinv => by
      unfold load_rows at hld
      cases hp : process_row cfg sw parser n_fields acc row with
      | error e => rw [hp] at hld; cases hld
      | ok acc1 =>
          rw [hp] at hld
          exact load_rows_inv cfg sw parser n_fields rest acc1 acc2
            (fun r hr => hrows r (List.mem_cons_of_mem row hr))
            hld
            (process_row_inv cfg sw parser n_fields acc row acc1
              (hrows row (List.mem_cons_self row rest)) hp hinv)

theorem update_registry_maps (st : ERState) (toks : List String)
    (a : Option (List String)) (b : Option (UndoMod (List Nat)))
    (c : Option (UndoMod (List Entry))) :
    (update_registry st toks a b c).term_first = st.term_first ∧
    (update_registry st toks a b c).full_terms = st.full_terms := by
  unfold update_registry
  cases dGet st.abbrevs toks <;> exact ⟨rfl, rfl⟩

theorem register_abbrev_inv (st : ERState) (toks norm : List String)
    (entries : List Entry)
    (hinv : indexLenInvariant st.term_first st.full_terms) :
    indexLenInvariant (register_abbrev st toks norm entries).term_first
      (register_abbrev st toks norm entries).full_terms := by
  unfold register_abbrev
  obtain ⟨h1, h2⟩ := update_registry_maps
    { st with
        stopwords := if norm ∈ st.stopwords then st.stopwords
          else st.stopwords ++ [norm],
        term_first :=
          (match dGet st.term_first (norm.headD "") with
            | none => (some UndoMod.pop,
                dSet st.term_first (norm.headD "") [toks.length])
            | some backup =>
                if toks.length ∈ backup then (none, st.term_first)
                else (some (UndoMod.restore backup),
                  dSet st.term_first (norm.headD "")
                    (sortAsc (toks.length :: backup)))).2,
        full_terms :=
          (match dGet st.full_terms toks with
            | none => (some UndoMod.pop, dSet st.full_terms toks entries)
            | some backup =>
                if entries.all (fun e => decide (e ∈ backup)) then
                  (none, st.full_terms)
                else (some (UndoMod.restore backup),
                  dSet st.full_terms toks
                    (backup ++ entries.filter (fun e => decide (e ∉ backup))))).2 }
    toks
    (if norm ∈ st.stopwords then none else some norm)
    (match dGet st.term_first (norm.headD "") with
      | none => (some UndoMod.pop,
          dSet st.term_first (norm.headD "") [toks.length])
      | some backup =>
          if toks.length ∈ backup then (none, st.term_first)
          else (some (UndoMod.restore backup),
            dSet st.term_first (norm.headD "")
              (sortAsc (toks.length :: backup)))).1
    (match dGet st.full_terms toks with
      | none => (some UndoMod.pop, dSet st.full_terms toks entries)
      | some backup =>
          if entries.all (fun e => decide (e ∈ backup)) then
            (none, st.full_terms)
          else (some (UndoMod.restore backup),
            dSet st.full_terms toks
              (backup ++ entries.filter (fun e => decide (e ∉ backup))))).1
  rw [h1, h2]
  set k0 := norm.headD "" with hk0def
  have htf : tfLe st.term_first
      (match dGet st.term_first k0 with
        | none => (some UndoMod.pop, dSet st.term_first k0 [toks.length])
        | some backup =>
            if toks.length ∈ backup then (none, st.term_first)
            else (some (UndoMod.restore backup),
              dSet st.term_first k0 (sortAsc (toks.length :: backup)))).2 := by
    cases hg : dGet st.term_first k0 with
    | none =>
        simp only [hg]
        exact tfLe_dSet_of_none st.term_first k0 _ hg
    | some backup =>
        by_cases hb : toks.length ∈ backup
        · simp only [hg, hb, if_pos]
          exact tfLe_refl st.term_first
        · simp only [hg, hb, if_neg, not_false_iff]
          exact tfLe_dSet_of_get st.term_first k0 backup _ hg
            (fun x hx => by
              rw [mem_sortAsc]
              exact List.mem_cons_of_mem _ hx)
  have hrec : lenRecorded
      (match dGet st.term_first k0 with
        | none => (some UndoMod.pop, dSet st.term_first k0 [toks.length])
        | some backup =>
            if toks.length ∈ backup then (none, st.term_first)
            else (some (UndoMod.restore backup),
              dSet st.term_first k0 (sortAsc (toks.length :: backup)))).2
      toks.length := by
    cases hg : dGet st.term_first k0 with
    | none =>
        simp only [hg]
        exact ⟨k0, [toks.length], dGet_dSet_self _ _ _, by simp⟩
    | some backup =>
        by_cases hb : toks.length ∈ backup
        · simp only [hg, hb, if_pos]
          exact ⟨k0, backup, hg, hb⟩
        · simp only [hg, hb, if_neg, not_false_iff]
          refine ⟨k0, sortAsc (toks.length :: backup), dGet_dSet_self _ _ _, ?_⟩
          rw [mem_sortAsc]
          exact List.mem_cons_self _ _
  intro k2 es2 hget2
  by_cases hk2 : k2 = toks
  · subst hk2
    simpa using hrec
  · have hsame : dGet st.full_terms k2 = some es2 := by
      revert hget2
      cases hg : dGet st.full_terms toks with
      | none =>
          simp only [hg]
          intro hget2
          rw [← hget2]
          exact (dGet_dSet_ne st.full_terms toks k2 _ hk2).symm
      | some backup =>
          by_cases hb : entries.all (fun e => decide (e ∈ backup))
          · simp only [hg, hb, if_pos]
            exact fun hget2 => hget2
          · simp only [hg, hb, if_neg, not_false_iff]
            intro hget2
            rw [← hget2]
            exact (dGet_dSet_ne st.full_terms toks k2 _ hk2).symm
    exact lenRecorded_mono st.term_first _ k2.length htf (hinv k2 es2 hsame)

/-- Abbreviation registrations applied in sequence, as performed by the
match hook while a document is processed. -/
def applyRegs (st : ERState)
    (regs : List (List String × List String × List Entry)) : ERState :=
  regs.foldl (fun s r => register_abbrev s r.1 r.2.1 r.2.2) st

theorem applyRegs_inv :
    ∀ (regs : List (List String × List String × List Entry)) (st : ERState),
      indexLenInvariant st.term_first st.full_terms →
      indexLenInvariant (applyRegs st regs).term_first
        (applyRegs st regs).full_terms
  | [], _, hinv => hinv
  | r :: rest, st, hinv =>
      applyRegs_inv rest (register_abbrev st r.1 r.2.1 r.2.2)
        (register_abbrev_inv st r.1 r.2.1 r.2.2 hinv)

/-! ### Claims -/

/-- Claim C1 (code bug): a single reset() is supposed to reverse every
registration exactly, leaving the three indices identical to their
pre-document state.  Evaluated at the failing input (dictionary term
Diabetes Mellitus, document sentence introducing the short form DM,
lowercase normalization): the stopword set and the full-term map are
restored and the registry is cleared, but the first-token map keeps
the learned key dm, because register_abbrev keys the mutation by the
normalized first token while clear_abbrev_cache undoes it at the exact
first token DM.  The reset is therefore not exact. -/
theorem claim_C1_reset_not_exact :
    dGet stDM.term_first "dm" = none ∧
    (clear_abbrev_cache stDMdoc).term_first = [("diabetes", [2]), ("dm", [1])] ∧
    (clear_abbrev_cache stDMdoc).stopwords = stDM.stopwords ∧
    (clear_abbrev_cache stDMdoc).full_terms = stDM.full_terms ∧
    (clear_abbrev_cache stDMdoc).abbrevs = [] ∧
    (clear_abbrev_cache stDMdoc).term_first ≠ stDM.term_first :=
  ⟨rfl, rfl, rfl, rfl, rfl, by decide⟩

/-- Index invariant in the exact wording of claim C2: the length of
every full-term key is recorded in the first-token map under the first
token of that very key. -/
def specIndexInvariant (tf : List (String × List Nat))
    (ft : List (List String × List Entry)) : Prop :=
  ∀ k entries, dGet ft k = some entries →
    ∃ lens, dGet tf (k.headD "") = some lens ∧ k.length ∈ lens

/-- Claim C2, counterexample: constructing the index from the single
term IS with stopword is and lowercase normalization produces the
full-term key IS (exactified by the stopword policy) while the length
is recorded under the normalized first token is; the first-token map
has no key IS, so the claimed invariant fails already at
construction time. -/
theorem claim_C2_counterexample :
    load_termlist_from_file cfgPlain swIs termlist_format_6 5
        [["x", "IS", "T", "P", "R", "C"]] =
      Except.ok ([("is", [1])], [(["IS"], [entryIs])]) ∧
    ¬ specIndexInvariant [("is", [1])] [(["IS"], [entryIs])] := by
  refine ⟨rfl, fun h => ?_⟩
  obtain ⟨lens, hl, _⟩ := h ["IS"] [entryIs] rfl
  exact Option.noConfusion hl

/-- Claim C2, amended: at every reachable state of the term index
(after construction from any term list whose rows all carry at least
one surface-term token, and after any sequence of abbreviation
registrations with nonempty normalized short forms), the length of
every key of the full-term map is recorded in the first-token map
under the normalized first token of the originating term; that
first-token key coincides with the first token of the key itself for
normalized keys, but differs for keys exactified by the stopword
policy or by abbreviation registration. -/
theorem claim_C2_amended (cfg : ERConfig) (sw : List (List String))
    (parser : RowParser) (n_fields : Nat) (rows : List (List String))
    (tf : List (String × List Nat)) (ft : List (List String × List Entry))
    (regs : List (List String × List String × List Entry))
    (hrows : ∀ r ∈ rows, rowTermNonempty cfg parser r)
    (hload : load_termlist_from_file cfg sw parser n_fields rows =
      Except.ok (tf, ft))
    (_hregs : ∀ r ∈ regs, r.2.1 ≠ []) :
    indexLenInvariant (applyRegs ⟨sw, tf, ft, []⟩ regs).term_first
      (applyRegs ⟨sw, tf, ft, []⟩ regs).full_terms := by
  unfold load_termlist_from_file at hload
  cases hl : load_rows cfg sw parser n_fields rows
      ⟨[], [], List.replicate n_fields ""⟩ with
  | error e => rw [hl] at hload; cases hload
  | ok acc =>
      rw [hl] at hload
      simp only at hload
      cases hload
      have hacc : indexLenInvariant acc.term_first acc.full_terms :=
        load_rows_inv cfg sw parser n_fields rows _ acc hrows hl
          (fun k es h => by simp [dGet] at h)
      have hinv0 : indexLenInvariant
          (acc.term_first.map (fun p => (p.1, sortAsc p.2))) acc.full_terms := by
        intro k es h
        refine lenRecorded_mono acc.term_first _ _ ?_ (hacc k es h)
        intro f lens hget
        refine ⟨sortAsc lens, ?_, fun x hx => (mem_sortAsc x lens).2 hx⟩
        rw [dGet_map_second, hget]
        rfl
      exact applyRegs_inv regs ⟨sw, _, _, []⟩ hinv0

/-- Witness for claim C2 amended: after loading the term is and
registering the abbreviation DM, the length of the full-term key DM is
recorded in the first-token map (under dm). -/
theorem claim_C2_amended_witness :
    lenRecorded (applyRegs ⟨swIs, [("is", [1])], [(["is"], [entryIs])], []⟩
      [(["DM"], ["dm"], [entryDM])]).term_first
      (["DM"] : List String).length :=
  claim_C2_amended cfgPlain swIs termlist_format_6 5
    [["x", "is", "T", "P", "R", "C"]] [("is", [1])] [(["is"], [entryIs])]
    [(["DM"], ["dm"], [entryDM])]
    (fun r hr => by
      simp only [List.mem_singleton] at hr
      subst hr
      intro term std extra h
      cases h
      decide)
    rfl
    (fun r hr => by
      simp only [List.mem_singleton] at hr
      subst hr
      decide)
    ["DM"] [entryDM] rfl

/-- Claim C5: with stopword is and the dictionary consisting of the
single surface term is (lowercase normalization), the index stores the
term under its exact tokens; the sentence IS yields no match and the
sentence is yields the entry of the term.  The first conjunct checks
the construction-time exactification, the last two the match-time
behavior. -/
theorem claim_C5_exact_match_policy :
    load_termlist_from_file cfgPlain swIs termlist_format_6 5
        [["x", "is", "T", "P", "R", "C"]] =
      Except.ok (stIs.term_first, stIs.full_terms) ∧
    (recognize_entities cfgPlain stIs "IS").1 = [] ∧
    (recognize_entities cfgPlain stIs "is").1 = [((0, 2), entryIs)] :=
  ⟨rfl, rfl, rfl⟩

/-- Claim C6: with abbreviation detection and the dictionary term
Diabetes Mellitus, processing the sentence Diabetes Mellitus (DM)
and then, in the same document, DM is treated yields for DM exactly
the entry set of Diabetes Mellitus; after reset(), the same sentence
as a fresh document yields no match. -/
theorem claim_C6_abbrev_round_trip :
    load_termlist_from_file cfgAbbr [] termlist_format_6 5
        [["id", "Diabetes Mellitus", "T", "DiaMel", "res", "cui"]] =
      Except.ok (stDM.term_first, stDM.full_terms) ∧
    dGet stDM.full_terms ["diabetes", "mellitus"] = some [entryDM] ∧
    (recognize_entities cfgAbbr stDMdoc "DM is treated").1 = [((0, 2), entryDM)] ∧
    (recognize_entities cfgAbbr (clear_abbrev_cache stDMdoc2) "DM is treated").1
      = [] :=
  ⟨rfl, rfl, rfl, rfl⟩

/-- Claim C7 (code bug): a row whose surface term tokenizes to zero
tokens is only half skipped.  Evaluated at the failing row with term
field consisting of two hyphens: the first-token map stays empty (the
IndexError handler logs the skip warning), but the loop then falls
through and still files the entry in the full-term map under the
empty key, contradicting the claim that the row contributes no entry
to either map. -/
theorem claim_C7_empty_term_row :
    load_termlist_from_file cfgPlain [] termlist_format_6 5
        [["id", "--", "T", "P", "R", "C"]] =
      Except.ok ([], [([], [["T", "P", "R", "id", "C"]])]) := rfl

/-- Claim C8, counterexample: with the 6-column format and no extra
fields configured, a row with 7 fields is accepted without any error;
the truncating zip of _cached_entry silently drops the surplus field,
so the field-count check passes.  The claim that every mismatching row
raises a hard parse error is therefore false for rows with too many
fields. -/
theorem claim_C8_counterexample :
    load_termlist_from_file cfgPlain [] termlist_format_6 5
        [["id", "t", "T", "P", "R", "C", "SURPLUS"]] =
      Except.ok ([("t", [1])], [(["t"], [["T", "P", "R", "id", "C"]])]) := rfl

theorem format6_cons (f0 f1 f2 f3 f4 f5 : String) (rest : List String) :
    termlist_format_6 (f0 :: f1 :: f2 :: f3 :: f4 :: f5 :: rest) =
      Except.ok (f1, [f2, f3, f4, f0, f5], rest) := rfl

/-- Claim C8, amended: with the 6-column format and n_extra configured
extra fields, processing a row raises a hard error exactly when the
row has fewer than 6 + n_extra fields (an IndexError in the column
parser when even the 6 standard columns are missing, the field-count
ValueError when extra fields are missing); a row with more fields than
configured is silently accepted, the surplus fields being dropped by
the truncating zip of the entry cache. -/
theorem claim_C8_amended (cfg : ERConfig) (sw : List (List String))
    (n_extra : Nat) (acc : LoadAcc) (fields : List String)
    (hacc : acc.entry.length = 5 + n_extra) :
    (∃ e, process_row cfg sw termlist_format_6 (5 + n_extra) acc fields =
      Except.error e) ↔ fields.length < 6 + n_extra := by
  rcases fields with _ | ⟨f0, _ | ⟨f1, _ | ⟨f2, _ | ⟨f3, _ | ⟨f4, _ | ⟨f5, rest⟩⟩⟩⟩⟩⟩
  case nil => exact iff_of_true ⟨_, rfl⟩ (by simp only [List.length_cons, List.length_nil]; omega)
  case cons.nil => exact iff_of_true ⟨_, rfl⟩ (by simp only [List.length_cons, List.length_nil]; omega)
  case cons.cons.nil => exact iff_of_true ⟨_, rfl⟩ (by simp only [List.length_cons, List.length_nil]; omega)
  case cons.cons.cons.nil => exact iff_of_true ⟨_, rfl⟩ (by simp only [List.length_cons, List.length_nil]; omega)
  case cons.cons.cons.cons.nil => exact iff_of_true ⟨_, rfl⟩ (by simp only [List.length_cons, List.length_nil]; omega)
  case cons.cons.cons.cons.cons.nil =>
      exact iff_of_true ⟨_, rfl⟩ (by simp only [List.length_cons, List.length_nil]; omega)
  case cons.cons.cons.cons.cons.cons =>
    unfold process_row
    rw [format6_cons]
    simp only
    have hlen : (cached_entry acc.entry ([f2, f3, f4, f0, f5] ++ rest)).length =
        min (5 + n_extra) (5 + rest.length) := by
      rw [cached_entry_keeps_new, List.length_map, List.length_zip, hacc]
      simp only [List.length_append, List.length_cons, List.length_nil]
    simp only [hlen]
    by_cases hc : rest.length < n_extra
    · rw [if_pos (by omega)]
      exact iff_of_true ⟨_, rfl⟩ (by simp only [List.length_cons, List.length_nil]; omega)
    · rw [if_neg (by omega)]
      refine iff_of_false ?_ (by simp only [List.length_cons, List.length_nil]; omega)
      rintro ⟨e, he⟩
      exact Except.noConfusion he

/-- Witness for claim C8 amended at a 5-field row with no extra fields
configured: processing errors, and 5 is less than 6. -/
theorem claim_C8_amended_witness :
    (∃ e, process_row cfgPlain [] termlist_format_6 (5 + 0)
      ⟨[], [], List.replicate 5 ""⟩ ["id", "t", "T", "P", "R"] =
        Except.error e) ↔
      (["id", "t", "T", "P", "R"] : List String).length < 6 + 0 :=
  claim_C8_amended cfgPlain [] 0 ⟨[], [], List.replicate 5 ""⟩
    ["id", "t", "T", "P", "R"] rfl

/-- Claim C9, counterexample: two rows sharing the surface form aa and
disagreeing on the type field produce two distinct entries accumulated
under the key; no stored entry has any blanked field, refuting the
claimed widening of conflicting fields to a placeholder. -/
theorem claim_C9_counterexample :
    load_termlist_from_file cfgPlain [] termlist_format_6 5
        [["id", "aa", "T1", "P", "R", "C"], ["id", "aa", "T2", "P", "R", "C"]] =
      Except.ok ([("aa", [1])],
        [(["aa"], [["T1", "P", "R", "id", "C"], ["T2", "P", "R", "id", "C"]])]) ∧
    ¬ ∃ e, e ∈ [["T1", "P", "R", "id", "C"], ["T2", "P", "R", "id", "C"]] ∧
      "" ∈ e :=
  ⟨rfl, by decide⟩

/-- Claim C9, amended: rows mapping to the same surface form accumulate
their entries as a set, so conflicting rows keep both full entries side
by side and verbatim repetitions are deduplicated; no field is ever
blanked, since _cached_entry returns the new fields unchanged (merely
truncated to the carried arity). -/
theorem claim_C9_amended :
    (∀ previous new : List String,
        cached_entry previous new = new.take previous.length) ∧
    load_termlist_from_file cfgPlain [] termlist_format_6 5
        [["id", "aa", "T1", "P", "R", "C"], ["id", "aa", "T2", "P", "R", "C"]] =
      Except.ok ([("aa", [1])],
        [(["aa"], [["T1", "P", "R", "id", "C"], ["T2", "P", "R", "id", "C"]])]) ∧
    load_termlist_from_file cfgPlain [] termlist_format_6 5
        [["id", "aa", "T1", "P", "R", "C"], ["id", "aa", "T1", "P", "R", "C"]] =
      Except.ok ([("aa", [1])], [(["aa"], [["T1", "P", "R", "id", "C"]])]) :=
  ⟨fun p n => (cached_entry_keeps_new p n).trans (zip_snd_take p n), rfl, rfl⟩

/-- Claim C10: a sentence in which the term tokenizer finds no tokens
makes recognize_entities return without yielding any match and without
touching the state; the ValueError of the empty unpacking is caught
inside the function. -/
theorem claim_C10_no_tokens_no_matches (cfg : ERConfig) (st : ERState)
    (s : String) (h : span_tokenize_words cfg.abbrevDetection s = []) :
    recognize_entities cfg st s = ([], st) := by
  simp only [recognize_entities, h]

/-- Witness for claim C10 at a punctuation-only sentence. -/
theorem claim_C10_witness :
    recognize_entities cfgPlain stIs " .,;-" = ([], stIs) :=
  claim_C10_no_tokens_no_matches cfgPlain stIs " .,;-" rfl

/-! ### Span-resolver proofs: submatch removal (claim C3) -/

/-- Offset order by (start, stop): the order in which entities are
kept within a sentence. -/
def entLexLe (a b : Ent) : Prop :=
  a.start < b.start ∨ (a.start = b.start ∧ a.stop ≤ b.stop)

instance : DecidableRel entLexLe := fun a b => by
  unfold entLexLe
  infer_instance

theorem containsEnt_iff (a b : Ent) :
    containsEnt a b = true ↔
      ((a.start ≤ b.start ∧ b.stop < a.stop) ∨
       (a.start < b.start ∧ b.stop ≤ a.stop)) := by
  simp [containsEnt]

theorem equalsEnt_iff (a b : Ent) :
    equalsEnt a b = true ↔ (a.start = b.start ∧ a.stop = b.stop) := by
  simp [equalsEnt]

theorem containsEnt_irrefl (a : Ent) : containsEnt a a = false := by
  rw [← Bool.not_eq_true, containsEnt_iff]
  omega

theorem equalsEnt_refl (a : Ent) : equalsEnt a a = true := by
  rw [equalsEnt_iff]
  exact ⟨rfl, rfl⟩

theorem containsEnt_congr (a b c : Ent) (h : equalsEnt b c = true) :
    containsEnt a b = containsEnt a c := by
  rw [equalsEnt_iff] at h
  unfold containsEnt
  rw [h.1, h.2]

theorem pairwise_getD {R : Ent → Ent → Prop} (es : List Ent)
    (h : es.Pairwise R) (p q : Nat) (hpq : p < q) (hq : q < es.length) :
    R (es.getD p dEnt) (es.getD q dEnt) := by
  rw [List.getD_eq_getElem es dEnt (Nat.lt_trans hpq hq),
      List.getD_eq_getElem es dEnt hq]
  exact List.pairwise_iff_getElem.1 h p q _ _ hpq

theorem sorted_start_le (es : List Ent) (hsort : es.Pairwise entLexLe)
    (p q : Nat) (hpq : p ≤ q) (hq : q < es.length) :
    (es.getD p dEnt).start ≤ (es.getD q dEnt).start := by
  rcases Nat.eq_or_lt_of_le hpq with h | h
  · subst h
    exact Nat.le_refl _
  · rcases pairwise_getD es hsort p q h hq with h1 | ⟨h1, _⟩
    · exact Nat.le_of_lt h1
    · exact Nat.le_of_eq h1

theorem drop_cons_facts (es rest2 : List Ent) (e : Ent) (i : Nat)
    (h : es.drop i = e :: rest2) :
    i < es.length ∧ es.getD i dEnt = e ∧ es.drop (i + 1) = rest2 := by
  have hi : i < es.length := by
    by_contra hge
    rw [List.drop_eq_nil_of_le (Nat.le_of_not_lt hge)] at h
    cases h
  have h2 := List.drop_eq_getElem_cons hi
  rw [h2] at h
  injection h with ha hb
  refine ⟨hi, ?_, hb⟩
  rw [List.getD_eq_getElem es dEnt hi]
  exact ha

/-- Characterization of the loop of _submatches.  The reference is an
already-processed entity of maximal end offset, not contained in any
processed entity; refIs lists exactly the processed indices whose
offsets tie with the reference.  Under these invariants the loop
yields, among the indices from i on together with the tied group,
exactly those whose entity is contained in some entity of the list. -/
theorem submatchesAux_spec :
    ∀ (rest es : List Ent) (i : Nat) (refEnt : Ent) (refIs : List Nat),
      rest = es.drop i →
      es.Pairwise entLexLe →
      (∃ r, r < i ∧ es.getD r dEnt = refEnt) →
      (∀ k, k < i → (es.getD k dEnt).stop ≤ refEnt.stop) →
      (∀ k, k < i → containsEnt (es.getD k dEnt) refEnt = false) →
      (∀ m, m ∈ refIs ↔ (m < i ∧ equalsEnt (es.getD m dEnt) refEnt = true)) →
      ∀ m, m ∈ submatchesAux refEnt refIs i rest ↔
        ((m ∈ refIs ∨ i ≤ m) ∧ m < es.length ∧
          ∃ k, k < es.length ∧
            containsEnt (es.getD k dEnt) (es.getD m dEnt) = true) := by
  intro rest
  induction rest with
  | nil =>
      intro es i refEnt refIs hdrop hsort hmem hmax hnc hri m
      have hlen : es.length ≤ i := by
        by_contra hlt
        have := List.drop_eq_getElem_cons (Nat.lt_of_not_le hlt)
        rw [← hdrop] at this
        cases this
      simp only [submatchesAux, List.not_mem_nil, false_iff]
      rintro ⟨hd, hm, k, hk, hcont⟩
      have hmref : m ∈ refIs := by
        rcases hd with hd | hd
        · exact hd
        · omega
      have heqm := (hri m).1 hmref
      rw [containsEnt_congr _ _ refEnt heqm.2] at hcont
      rw [hnc k (Nat.lt_of_lt_of_le hk hlen)] at hcont
      cases hcont
  | cons e rest2 ih =>
      intro es i refEnt refIs hdrop hsort hmem hmax hnc hri m
      obtain ⟨hi, he, hdrop2⟩ := drop_cons_facts es rest2 e i hdrop.symm
      obtain ⟨r, hr, hre⟩ := hmem
      have hsr : refEnt.start ≤ e.start := by
        have := sorted_start_le es hsort r i (Nat.le_of_lt hr) hi
        rw [hre, he] at this
        exact this
      simp only [submatchesAux]
      by_cases hc1 : containsEnt refEnt e = true
      · -- the new entity is contained in the reference: yield i
        rw [if_pos hc1]
        have hc1p := (containsEnt_iff refEnt e).1 hc1
        have hmax1 : ∀ k, k < i + 1 → (es.getD k dEnt).stop ≤ refEnt.stop := by
          intro k hk
          rcases Nat.lt_or_ge k i with hk2 | hk2
          · exact hmax k hk2
          · have : k = i := by omega
            subst this
            rw [he]
            omega
        have hnc1 : ∀ k, k < i + 1 →
            containsEnt (es.getD k dEnt) refEnt = false := by
          intro k hk
          rcases Nat.lt_or_ge k i with hk2 | hk2
          · exact hnc k hk2
          · have : k = i := by omega
            subst this
            rw [he, ← Bool.not_eq_true, containsEnt_iff]
            omega
        have hri1 : ∀ m2, m2 ∈ refIs ↔
            (m2 < i + 1 ∧ equalsEnt (es.getD m2 dEnt) refEnt = true) := by
          intro m2
          rw [hri m2]
          constructor
          · rintro ⟨h1, h2⟩
            exact ⟨by omega, h2⟩
          · rintro ⟨h1, h2⟩
            refine ⟨?_, h2⟩
            rcases Nat.lt_or_ge m2 i with h3 | h3
            · exact h3
            · have : m2 = i := by omega
              subst this
              rw [he, equalsEnt_iff] at h2
              omega
        rw [List.mem_cons,
          ih es (i + 1) refEnt refIs hdrop2.symm hsort
            ⟨r, by omega, hre⟩ hmax1 hnc1 hri1 m]
        constructor
        · rintro (rfl | ⟨h1, h2, h3⟩)
          · refine ⟨Or.inr (Nat.le_refl _), hi, r, Nat.lt_trans hr hi, ?_⟩
            rw [hre, he]
            exact hc1
          · refine ⟨?_, h2, h3⟩
            rcases h1 with h1 | h1
            · exact Or.inl h1
            · exact Or.inr (by omega)
        · rintro ⟨h1, h2, h3⟩
          by_cases hm : m = i
          · exact Or.inl hm
          · refine Or.inr ⟨?_, h2, h3⟩
            rcases h1 with h1 | h1
            · exact Or.inl h1
            · exact Or.inr (by omega)
      · rw [if_neg hc1]
        have hc1f : containsEnt refEnt e = false := by
          rw [← Bool.not_eq_true]
          exact hc1
        by_cases hc2 : containsEnt e refEnt = true
        · -- the new entity contains the reference: flush the tied group
          rw [if_pos hc2]
          have hc2p := (containsEnt_iff e refEnt).1 hc2
          have hkey : e.start = refEnt.start ∧ refEnt.stop < e.stop := by omega
          have hmax1 : ∀ k, k < i + 1 → (es.getD k dEnt).stop ≤ e.stop := by
            intro k hk
            rcases Nat.lt_or_ge k i with hk2 | hk2
            · have := hmax k hk2
              omega
            · have : k = i := by omega
              subst this
              rw [he]
          have hnc1 : ∀ k, k < i + 1 →
              containsEnt (es.getD k dEnt) e = false := by
            intro k hk
            rcases Nat.lt_or_ge k i with hk2 | hk2
            · have := hmax k hk2
              rw [← Bool.not_eq_true, containsEnt_iff]
              omega
            · have : k = i := by omega
              subst this
              rw [he]
              exact containsEnt_irrefl e
          have hri1 : ∀ m2, m2 ∈ ([i] : List Nat) ↔
              (m2 < i + 1 ∧ equalsEnt (es.getD m2 dEnt) e = true) := by
            intro m2
            simp only [List.mem_singleton]
            constructor
            · rintro rfl
              exact ⟨Nat.lt_succ_self _, by rw [he]; exact equalsEnt_refl e⟩
            · rintro ⟨h1, h2⟩
              rcases Nat.lt_or_ge m2 i with h3 | h3
              · exfalso
                have := hmax m2 h3
                rw [equalsEnt_iff] at h2
                omega
              · omega
          rw [List.mem_append,
            ih es (i + 1) e [i] hdrop2.symm hsort
              ⟨i, Nat.lt_succ_self _, he⟩ hmax1 hnc1 hri1 m]
          constructor
          · rintro (hm | ⟨h1, h2, h3⟩)
            · have hmr := (hri m).1 hm
              rw [equalsEnt_iff] at hmr
              refine ⟨Or.inl hm, Nat.lt_trans hmr.1 hi, i, hi, ?_⟩
              rw [he, containsEnt_iff]
              omega
            · refine ⟨?_, h2, h3⟩
              rcases h1 with h1 | h1
              · simp only [List.mem_singleton] at h1
                exact Or.inr (by omega)
              · exact Or.inr (by omega)
          · rintro ⟨h1, h2, h3⟩
            rcases h1 with h1 | h1
            · exact Or.inl h1
            · refine Or.inr ⟨?_, h2, h3⟩
              rcases Nat.eq_or_lt_of_le h1 with h4 | h4
              · exact Or.inl (by simp [h4.symm])
              · exact Or.inr h4
        · rw [if_neg hc2]
          have hc2f : containsEnt e refEnt = false := by
            rw [← Bool.not_eq_true]
            exact hc2
          by_cases heq : equalsEnt e refEnt = true
          · -- tie on both offsets: extend the tied group
            rw [if_pos heq]
            have heqp := (equalsEnt_iff e refEnt).1 heq
            have hmax1 : ∀ k, k < i + 1 →
                (es.getD k dEnt).stop ≤ refEnt.stop := by
              intro k hk
              rcases Nat.lt_or_ge k i with hk2 | hk2
              · exact hmax k hk2
              · have : k = i := by omega
                subst this
                rw [he]
                omega
            have hnc1 : ∀ k, k < i + 1 →
                containsEnt (es.getD k dEnt) refEnt = false := by
              intro k hk
              rcases Nat.lt_or_ge k i with hk2 | hk2
              · exact hnc k hk2
              · have : k = i := by omega
                subst this
                rw [he]
                exact hc2f
            have hri1 : ∀ m2, m2 ∈ refIs ++ [i] ↔
                (m2 < i + 1 ∧ equalsEnt (es.getD m2 dEnt) refEnt = true) := by
              intro m2
              rw [List.mem_append, List.mem_singleton, hri m2]
              constructor
              · rintro (⟨h1, h2⟩ | rfl)
                · exact ⟨by omega, h2⟩
                · refine ⟨Nat.lt_succ_self _, ?_⟩
                  rw [he]
                  exact heq
              · rintro ⟨h1, h2⟩
                rcases Nat.lt_or_ge m2 i with h3 | h3
                · exact Or.inl ⟨h3, h2⟩
                · exact Or.inr (by omega)
            rw [ih es (i + 1) refEnt (refIs ++ [i]) hdrop2.symm hsort
              ⟨r, by omega, hre⟩ hmax1 hnc1 hri1 m]
            constructor
            · rintro ⟨h1, h2, h3⟩
              refine ⟨?_, h2, h3⟩
              rcases h1 with h1 | h1
              · rw [List.mem_append, List.mem_singleton] at h1
                rcases h1 with h1 | h1
                · exact Or.inl h1
                · exact Or.inr (by omega)
              · exact Or.inr (by omega)
            · rintro ⟨h1, h2, h3⟩
              refine ⟨?_, h2, h3⟩
              rcases h1 with h1 | h1
              · exact Or.inl (by rw [List.mem_append]; exact Or.inl h1)
              · rcases Nat.eq_or_lt_of_le h1 with h4 | h4
                · refine Or.inl ?_
                  rw [List.mem_append, List.mem_singleton]
                  exact Or.inr h4.symm
                · exact Or.inr h4
          · -- disjoint or partial overlap: adopt the new reference
            rw [if_neg heq]
            have heqf : equalsEnt e refEnt = false := by
              rw [← Bool.not_eq_true]
              exact heq
            rw [containsEnt_iff] at hc1 hc2
            rw [equalsEnt_iff] at heq
            have hkey : refEnt.start < e.start ∧ refEnt.stop < e.stop := by
              omega
            have hmax1 : ∀ k, k < i + 1 → (es.getD k dEnt).stop ≤ e.stop := by
              intro k hk
              rcases Nat.lt_or_ge k i with hk2 | hk2
              · have := hmax k hk2
                omega
              · have : k = i := by omega
                subst this
                rw [he]
            have hnc1 : ∀ k, k < i + 1 →
                containsEnt (es.getD k dEnt) e = false := by
              intro k hk
              rcases Nat.lt_or_ge k i with hk2 | hk2
              · have := hmax k hk2
                rw [← Bool.not_eq_true, containsEnt_iff]
                omega
              · have : k = i := by omega
                subst this
                rw [he]
                exact containsEnt_irrefl e
            have hri1 : ∀ m2, m2 ∈ ([i] : List Nat) ↔
                (m2 < i + 1 ∧ equalsEnt (es.getD m2 dEnt) e = true) := by
              intro m2
              simp only [List.mem_singleton]
              constructor
              · rintro rfl
                exact ⟨Nat.lt_succ_self _, by rw [he]; exact equalsEnt_refl e⟩
              · rintro ⟨h1, h2⟩
                rcases Nat.lt_or_ge m2 i with h3 | h3
                · exfalso
                  have := hmax m2 h3
                  rw [equalsEnt_iff] at h2
                  omega
                · omega
            rw [ih es (i + 1) e [i] hdrop2.symm hsort
              ⟨i, Nat.lt_succ_self _, he⟩ hmax1 hnc1 hri1 m]
            constructor
            · rintro ⟨h1, h2, h3⟩
              refine ⟨?_, h2, h3⟩
              rcases h1 with h1 | h1
              · simp only [List.mem_singleton] at h1
                exact Or.inr (by omega)
              · exact Or.inr (by omega)
            · rintro ⟨h1, h2, ⟨k, hk, hcont⟩⟩
              have hile : i ≤ m := by
                rcases h1 with h1 | h1
                · -- a member of the dropped tied group cannot be
                  -- contained in anything: derive a contradiction
                  exfalso
                  have hmr := (hri m).1 h1
                  rw [containsEnt_congr _ _ refEnt hmr.2] at hcont
                  rcases Nat.lt_or_ge k i with hk2 | hk2
                  · rw [hnc k hk2] at hcont
                    cases hcont
                  · rcases Nat.eq_or_lt_of_le hk2 with hk3 | hk3
                    · rw [← hk3, he, hc2f] at hcont
                      cases hcont
                    · have hs := sorted_start_le es hsort i k (Nat.le_of_lt hk3) hk
                      rw [he] at hs
                      rw [containsEnt_iff] at hcont
                      omega
                · exact h1
              refine ⟨?_, h2, k, hk, hcont⟩
              rcases Nat.eq_or_lt_of_le hile with h4 | h4
              · exact Or.inl (by simp [h4.symm])
              · exact Or.inr h4

/-- The generator _submatches yields, for an offset-sorted entity
list, exactly the indices of entities contained in some entity of the
list. -/
theorem submatches_spec (es : List Ent) (hsort : es.Pairwise entLexLe)
    (m : Nat) :
    m ∈ submatches es ↔
      m < es.length ∧ ∃ k, k < es.length ∧
        containsEnt (es.getD k dEnt) (es.getD m dEnt) = true := by
  match es, hsort with
  | [], _ =>
      simp [submatches]
  | e0 :: tl, hsort =>
      have h := submatchesAux_spec tl (e0 :: tl) 1 e0 [0] rfl hsort
        ⟨0, Nat.lt_succ_self 0, rfl⟩
        (by
          intro k hk
          have : k = 0 := by omega
          subst this
          exact Nat.le_refl _)
        (by
          intro k hk
          have : k = 0 := by omega
          subst this
          exact containsEnt_irrefl e0)
        (by
          intro m2
          simp only [List.mem_singleton]
          constructor
          · rintro rfl
            exact ⟨Nat.lt_succ_self 0, equalsEnt_refl e0⟩
          · rintro ⟨h1, _⟩
            omega)
        m
      rw [show submatches (e0 :: tl) = submatchesAux e0 [0] 1 tl from rfl, h]
      constructor
      · rintro ⟨_, h2, h3⟩
        exact ⟨h2, h3⟩
      · rintro ⟨h2, h3⟩
        refine ⟨?_, h2, h3⟩
        rcases Nat.eq_zero_or_pos m with h4 | h4
        · exact Or.inl (by simp [h4])
        · exact Or.inr h4

theorem exists_index_iff_mem (es : List Ent) (P : Ent → Prop) :
    (∃ k, k < es.length ∧ P (es.getD k dEnt)) ↔ ∃ a ∈ es, P a := by
  constructor
  · rintro ⟨k, hk, hp⟩
    refine ⟨es.getD k dEnt, ?_, hp⟩
    rw [List.getD_eq_getElem es dEnt hk]
    exact List.getElem_mem hk
  · rintro ⟨a, ha, hp⟩
    obtain ⟨k, hk, hak⟩ := List.mem_iff_getElem.1 ha
    refine ⟨k, hk, ?_⟩
    rw [List.getD_eq_getElem es dEnt hk, hak]
    exact hp

/-- Claim C3: on an entity list sorted by (start, end) with well-formed
offsets, remove_submatches removes exactly the entities properly
contained in some other entity of the list (the containment test is
false for identical offsets, so ties never remove each other), and on
the example list only the covering entity A remains. -/
theorem claim_C3_submatches_exact :
    (∀ es : List Ent, es.Pairwise entLexLe → (∀ a ∈ es, a.start < a.stop) →
      ∀ m, m ∈ submatches es ↔
        m < es.length ∧ ∃ a ∈ es, containsEnt a (es.getD m dEnt) = true) ∧
    (∀ a b : Ent, a.start = b.start → a.stop = b.stop →
      containsEnt a b = false) ∧
    remove_submatches [⟨0, 20, "A"⟩, ⟨0, 8, "B"⟩, ⟨12, 18, "C"⟩] =
      [⟨0, 20, "A"⟩] := by
  refine ⟨?_, ?_, rfl⟩
  · intro es hsort _ m
    rw [submatches_spec es hsort m]
    exact and_congr Iff.rfl
      (exists_index_iff_mem es (fun a => containsEnt a (es.getD m dEnt) = true))
  · intro a b h1 h2
    rw [← Bool.not_eq_true, containsEnt_iff]
    omega

/-- Witness for claim C3 on a concrete sorted well-formed list: the
nested second entity is reported as a submatch. -/
theorem claim_C3_witness :
    1 ∈ submatches [⟨0, 8, "B"⟩, ⟨1, 5, "D"⟩] ↔
      1 < ([⟨0, 8, "B"⟩, ⟨1, 5, "D"⟩] : List Ent).length ∧
      ∃ a ∈ ([⟨0, 8, "B"⟩, ⟨1, 5, "D"⟩] : List Ent),
        containsEnt a (([⟨0, 8, "B"⟩, ⟨1, 5, "D"⟩] : List Ent).getD 1 dEnt) =
          true :=
  claim_C3_submatches_exact.1 [⟨0, 8, "B"⟩, ⟨1, 5, "D"⟩]
    (by decide) (by decide) 1

/-! ### Span-resolver proofs: overlap clusters (claim C4) -/

/-- Sortedness by start offset, the precondition of the overlap
clustering. -/
def startLe (a b : Ent) : Prop := a.start ≤ b.start

instance : DecidableRel startLe := fun a b => by
  unfold startLe
  infer_instance

/-- Character overlap of two half-open spans. -/
def olapB (a b : Ent) : Bool := decide (a.start < b.stop ∧ b.start < a.stop)

/-- Overlap of the entities at two indices of the list (the edge
relation of the claim wording). -/
def olapIdx (es : List Ent) (p q : Nat) : Prop :=
  p < es.length ∧ q < es.length ∧
    olapB (es.getD p dEnt) (es.getD q dEnt) = true

/-- Spec-side clustering following the claim wording: two indices lie
in the same maximal chain of transitively overlapping spans when the
reflexive transitive closure of the overlap relation connects them. -/
def sameCluster (es : List Ent) : Nat → Nat → Prop :=
  Relation.ReflTransGen (olapIdx es)

/-- Span length of the entity at an index. -/
def entLen (es : List Ent) (k : Nat) : Nat :=
  (es.getD k dEnt).stop - (es.getD k dEnt).start

/-- End offsets of the window of n entities from index b on. -/
def stopsFrom (es : List Ent) (b n : Nat) : List Nat :=
  (List.range' b n).map (fun k => (es.getD k dEnt).stop)

/-- Running maximal end offset over a window, the value the current
end variable of _clusters holds within one cluster. -/
def maxStopRange (es : List Ent) (b n : Nat) : Nat :=
  (stopsFrom es b n).foldl max 0

/-- Span lengths of the window of n entities from index b on. -/
def lensFrom (es : List Ent) (b n : Nat) : List Nat :=
  (List.range' b n).map (fun k => entLen es k)

/-- Maximal span length over a window. -/
def maxLenRange (es : List Ent) (b n : Nat) : Nat :=
  (lensFrom es b n).foldl max 0

theorem foldl_max_init_le : ∀ (l : List Nat) (a : Nat), a ≤ l.foldl max a
  | [], a => Nat.le_refl a
  | x :: l, a =>
      Nat.le_trans (Nat.le_max_left a x) (foldl_max_init_le l (max a x))

theorem le_foldl_max_of_mem :
    ∀ (l : List Nat) (a x : Nat), x ∈ l → x ≤ l.foldl max a
  | [], _, _, h => absurd h (List.not_mem_nil _)
  | y :: l, a, x, h => by
      rcases List.mem_cons.1 h with rfl | h2
      · exact Nat.le_trans (Nat.le_max_right a x) (foldl_max_init_le l (max a x))
      · exact le_foldl_max_of_mem l (max a y) x h2

theorem foldl_max_le :
    ∀ (l : List Nat) (a c : Nat), a ≤ c → (∀ x ∈ l, x ≤ c) →
      l.foldl max a ≤ c
  | [], _, _, ha, _ => ha
  | x :: l, a, c, ha, h =>
      foldl_max_le l (max a x) c
        (Nat.max_le.2 ⟨ha, h x (List.mem_cons_self x l)⟩)
        (fun y hy => h y (List.mem_cons_of_mem x hy))

theorem foldl_max_eq_init_or_mem :
    ∀ (l : List Nat) (a : Nat), l.foldl max a = a ∨ l.foldl max a ∈ l
  | [], _ => Or.inl rfl
  | x :: l, a => by
      rcases foldl_max_eq_init_or_mem l (max a x) with h | h
      · rw [List.foldl_cons, h]
        rcases Nat.le_total a x with h2 | h2
        · rw [Nat.max_eq_right h2]
          exact Or.inr (List.mem_cons_self x l)
        · rw [Nat.max_eq_left h2]
          exact Or.inl rfl
      · exact Or.inr (List.mem_cons_of_mem x h)

theorem stop_le_maxStopRange (es : List Ent) (b n k : Nat)
    (hk1 : b ≤ k) (hk2 : k < b + n) :
    (es.getD k dEnt).stop ≤ maxStopRange es b n := by
  apply le_foldl_max_of_mem
  unfold stopsFrom
  exact List.mem_map_of_mem _ (List.mem_range'_1.2 ⟨hk1, hk2⟩)

theorem len_le_maxLenRange (es : List Ent) (b n k : Nat)
    (hk1 : b ≤ k) (hk2 : k < b + n) :
    entLen es k ≤ maxLenRange es b n := by
  apply le_foldl_max_of_mem
  unfold lensFrom
  exact List.mem_map_of_mem _ (List.mem_range'_1.2 ⟨hk1, hk2⟩)

theorem maxStopRange_succ (es : List Ent) (b n : Nat) :
    maxStopRange es b (n + 1) = max (maxStopRange es b n)
      (es.getD (b + n) dEnt).stop := by
  unfold maxStopRange stopsFrom
  rw [List.range'_1_concat, List.map_append, List.foldl_append]
  rfl

theorem maxStopRange_one (es : List Ent) (b : Nat) :
    maxStopRange es b 1 = (es.getD b dEnt).stop := by
  unfold maxStopRange stopsFrom
  simp [List.range']

theorem maxStopRange_achieved (es : List Ent) (b n : Nat) (hn : 0 < n)
    (hpos : ∀ k, b ≤ k → k < b + n → 0 < (es.getD k dEnt).stop) :
    ∃ k, b ≤ k ∧ k < b + n ∧ (es.getD k dEnt).stop = maxStopRange es b n := by
  rcases foldl_max_eq_init_or_mem (stopsFrom es b n) 0 with h | h
  · exfalso
    have h1 := hpos b (Nat.le_refl b) (by omega)
    have h2 := stop_le_maxStopRange es b n b (Nat.le_refl b) (by omega)
    unfold maxStopRange at h2
    omega
  · unfold maxStopRange
    unfold stopsFrom at h
    rw [List.mem_map] at h
    obtain ⟨k, hk, hk2⟩ := h
    rw [List.mem_range'_1] at hk
    exact ⟨k, hk.1, hk.2, hk2⟩

theorem maxLenRange_achieved (es : List Ent) (b n : Nat) (hn : 0 < n)
    (hpos : ∀ k, b ≤ k → k < b + n → 0 < entLen es k) :
    ∃ k, b ≤ k ∧ k < b + n ∧ entLen es k = maxLenRange es b n := by
  rcases foldl_max_eq_init_or_mem (lensFrom es b n) 0 with h | h
  · exfalso
    have h1 := hpos b (Nat.le_refl b) (by omega)
    have h2 := len_le_maxLenRange es b n b (Nat.le_refl b) (by omega)
    unfold maxLenRange at h2
    omega
  · unfold maxLenRange
    unfold lensFrom at h
    rw [List.mem_map] at h
    obtain ⟨k, hk, hk2⟩ := h
    rw [List.mem_range'_1] at hk
    exact ⟨k, hk.1, hk.2, hk2⟩

theorem olapIdx_symm (es : List Ent) (p q : Nat) (h : olapIdx es p q) :
    olapIdx es q p := by
  obtain ⟨h1, h2, h3⟩ := h
  refine ⟨h2, h1, ?_⟩
  unfold olapB at h3 ⊢
  simp only [decide_eq_true_eq] at h3 ⊢
  omega

theorem sameCluster_symm (es : List Ent) (p q : Nat)
    (h : sameCluster es p q) : sameCluster es q p :=
  Relation.ReflTransGen.symmetric (olapIdx_symm es) h

theorem sorted_start_le2 (es : List Ent) (hsort : es.Pairwise startLe)
    (p q : Nat) (hpq : p ≤ q) (hq : q < es.length) :
    (es.getD p dEnt).start ≤ (es.getD q dEnt).start := by
  rcases Nat.eq_or_lt_of_le hpq with h | h
  · subst h
    exact Nat.le_refl _
  · exact pairwise_getD es hsort p q h hq

theorem entLen_pos (es : List Ent) (hwf : ∀ a ∈ es, a.start < a.stop)
    (k : Nat) (hk : k < es.length) : 0 < entLen es k := by
  have hmem : es.getD k dEnt ∈ es := by
    rw [List.getD_eq_getElem es dEnt hk]
    exact List.getElem_mem hk
  have := hwf _ hmem
  unfold entLen
  omega

theorem stop_pos (es : List Ent) (hwf : ∀ a ∈ es, a.start < a.stop)
    (k : Nat) (hk : k < es.length) : 0 < (es.getD k dEnt).stop := by
  have hmem : es.getD k dEnt ∈ es := by
    rw [List.getD_eq_getElem es dEnt hk]
    exact List.getElem_mem hk
  have := hwf _ hmem
  omega

/-- Confinement of a closed cluster: with the dead-past condition at b
and the window bound past b + n, the overlap closure cannot leave the
window of n entities at b. -/
theorem reach_within (es : List Ent) (hsort : es.Pairwise startLe)
    (b n : Nat)
    (hdead : ∀ k, k < b → k < es.length →
      (es.getD k dEnt).stop ≤ (es.getD b dEnt).start)
    (hbound : ∀ q, b + n ≤ q → q < es.length →
      maxStopRange es b n ≤ (es.getD q dEnt).start)
    (m j : Nat) (h : sameCluster es m j) (hm1 : b ≤ m) (hm2 : m < b + n) :
    b ≤ j ∧ j < b + n := by
  induction h with
  | refl => exact ⟨hm1, hm2⟩
  | tail hpq hstep ih =>
      rename_i p q
      obtain ⟨ih1, ih2⟩ := ih
      obtain ⟨hp, hq, ho⟩ := hstep
      unfold olapB at ho
      simp only [decide_eq_true_eq] at ho
      constructor
      · by_contra hqb
        push_neg at hqb
        have h1 := hdead q hqb hq
        have h2 : (es.getD b dEnt).start ≤ (es.getD p dEnt).start :=
          sorted_start_le2 es hsort b p ih1 hp
        omega
      · by_contra hqn
        push_neg at hqn
        have h1 := hbound q hqn hq
        have h2 := stop_le_maxStopRange es b n p ih1 ih2
        omega

/-- Inside a closed cluster, being shorter than some connected entity
is the same as being shorter than the longest entity of the window. -/
theorem comp_window (es : List Ent) (hsort : es.Pairwise startLe)
    (hwf : ∀ a ∈ es, a.start < a.stop) (b n : Nat) (hn : b + n ≤ es.length)
    (hdead : ∀ k, k < b → k < es.length →
      (es.getD k dEnt).stop ≤ (es.getD b dEnt).start)
    (hbound : ∀ q, b + n ≤ q → q < es.length →
      maxStopRange es b n ≤ (es.getD q dEnt).start)
    (hconn : ∀ k, b ≤ k → k < b + n → sameCluster es b k)
    (m : Nat) (hm1 : b ≤ m) (hm2 : m < b + n) :
    (∃ j, sameCluster es m j ∧ entLen es m < entLen es j) ↔
      entLen es m < maxLenRange es b n := by
  constructor
  · rintro ⟨j, hc, hlt⟩
    have hj := reach_within es hsort b n hdead hbound m j hc hm1 hm2
    exact Nat.lt_of_lt_of_le hlt (len_le_maxLenRange es b n j hj.1 hj.2)
  · intro hlt
    obtain ⟨j, hj1, hj2, hj3⟩ := maxLenRange_achieved es b n (by omega)
      (fun k hk1 hk2 => entLen_pos es hwf k (by omega))
    refine ⟨j, ?_, by omega⟩
    exact Relation.ReflTransGen.trans
      (sameCluster_symm es b m (hconn m hm1 hm2)) (hconn j hj1 hj2)

theorem maxLenRange_one (es : List Ent) (b : Nat) :
    maxLenRange es b 1 = entLen es b := by
  unfold maxLenRange lensFrom
  simp [List.range']

theorem maxLen_window (es : List Ent) (b n : Nat) :
    maxLen ((List.range' b n).map (fun k => (k, entLen es k))) =
      maxLenRange es b n := by
  unfold maxLen maxLenRange lensFrom
  rw [List.map_map]
  rfl

theorem mem_pickShort (es : List Ent) (b n m : Nat) :
    m ∈ pickShort ((List.range' b n).map (fun k => (k, entLen es k))) ↔
      (b ≤ m ∧ m < b + n ∧ entLen es m ≠ maxLenRange es b n) := by
  unfold pickShort
  rw [maxLen_window]
  simp only [List.mem_map, List.mem_filter]
  constructor
  · rintro ⟨p, ⟨hp, hne⟩, rfl⟩
    obtain ⟨k, hk, rfl⟩ := hp
    rw [List.mem_range'_1] at hk
    simp only [decide_eq_true_eq] at hne
    exact ⟨hk.1, hk.2, hne⟩
  · rintro ⟨h1, h2, h3⟩
    exact ⟨(m, entLen es m), ⟨⟨m, List.mem_range'_1.2 ⟨h1, h2⟩, rfl⟩,
      by simpa⟩, rfl⟩

/-- Characterization of the loops of _clusters and _crossmatches.  The
pending cluster spans the window of entities from b to i, the current
end variable holds the window maximum, everything before b ends at or
before the start of entity b, and the window is connected.  Under
these invariants the removables collected from the remaining entities,
together with the pending cluster, are exactly the indices from b on
whose entity is transitively connected to a strictly longer one. -/
theorem clustersAux_spec :
    ∀ (rest es : List Ent) (b i cur : Nat) (cluster : List (Nat × Nat)),
      rest = es.drop i →
      es.Pairwise startLe →
      (∀ a ∈ es, a.start < a.stop) →
      b < i → i ≤ es.length →
      cluster = (List.range' b (i - b)).map (fun k => (k, entLen es k)) →
      cur = maxStopRange es b (i - b) →
      (∀ k, k < b → k < es.length →
        (es.getD k dEnt).stop ≤ (es.getD b dEnt).start) →
      (∀ k, b ≤ k → k < i → sameCluster es b k) →
      ∀ m, m ∈ (clustersAux cluster cur i rest).flatMap pickShort ↔
        (b ≤ m ∧ m < es.length ∧
          ∃ j, sameCluster es m j ∧ entLen es m < entLen es j) := by
  intro rest
  induction rest with
  | nil =>
      intro es b i cur cluster hdrop hsort hwf hbi hii hcluster hcur hdead hconn m
      have hlen : es.length ≤ i := by
        by_contra hlt
        have h2 := List.drop_eq_getElem_cons (Nat.lt_of_not_le hlt)
        rw [← hdrop] at h2
        cases h2
      have hbound : ∀ q, b + (i - b) ≤ q → q < es.length →
          maxStopRange es b (i - b) ≤ (es.getD q dEnt).start := by
        intro q hq1 hq2
        omega
      have hcw := comp_window es hsort hwf b (i - b) (by omega) hdead
        hbound (fun k hk1 hk2 => hconn k hk1 (by omega))
      subst hcluster
      simp only [clustersAux]
      by_cases hc : 1 < i - b
      · rw [if_pos (by rw [List.length_map, List.length_range']; omega)]
        simp only [List.flatMap_cons, List.flatMap_nil, List.append_nil]
        constructor
        · intro hmem
          obtain ⟨h1, h2, h3⟩ := (mem_pickShort es b (i - b) m).1 hmem
          have hlt : entLen es m < maxLenRange es b (i - b) :=
            Nat.lt_of_le_of_ne (len_le_maxLenRange es b (i - b) m h1 h2) h3
          exact ⟨h1, by omega, (hcw m h1 h2).2 hlt⟩
        · rintro ⟨h1, h2, h3⟩
          have hm2 : m < b + (i - b) := by omega
          have hlt := (hcw m h1 hm2).1 h3
          exact (mem_pickShort es b (i - b) m).2 ⟨h1, hm2, by omega⟩
      · rw [if_neg (by rw [List.length_map, List.length_range']; omega)]
        simp only [List.flatMap_nil, List.not_mem_nil, false_iff]
        rintro ⟨h1, h2, h3⟩
        have hm2 : m < b + (i - b) := by omega
        have hlt := (hcw m h1 hm2).1 h3
        rw [show i - b = 1 from by omega, maxLenRange_one] at hlt
        have hmb : m = b := by omega
        subst hmb
        omega
  | cons e rest2 ih =>
      intro es b i cur cluster hdrop hsort hwf hbi hii hcluster hcur hdead hconn m
      obtain ⟨hi, he, hdrop2⟩ := drop_cons_facts es rest2 e i hdrop.symm
      have hewf : e.start < e.stop := by
        have hmem : e ∈ es := by
          rw [← he, List.getD_eq_getElem es dEnt hi]
          exact List.getElem_mem hi
        exact hwf e hmem
      simp only [clustersAux]
      by_cases hb : e.start ≥ cur
      · -- cluster boundary: flush the pending cluster, open a new one
        rw [if_pos hb]
        rw [List.flatMap_append]
        have hdead2 : ∀ k, k < i → k < es.length →
            (es.getD k dEnt).stop ≤ (es.getD i dEnt).start := by
          intro k hk1 hk2
          rw [he]
          rcases Nat.lt_or_ge k b with hkb | hkb
          · have h3 := hdead k hkb hk2
            have h4 : (es.getD b dEnt).start ≤ (es.getD i dEnt).start :=
              sorted_start_le2 es hsort b i (by omega) hi
            rw [he] at h4
            omega
          · have h3 := stop_le_maxStopRange es b (i - b) k hkb (by omega)
            rw [← hcur] at h3
            omega
        have hrec := ih es i (i + 1) (max cur e.stop)
          [(i, e.stop - e.start)] hdrop2.symm hsort hwf (by omega) (by omega)
          (by
            rw [show i + 1 - i = 1 from by omega,
              show List.range' i 1 = [i] from rfl]
            simp only [List.map_cons, List.map_nil]
            unfold entLen
            rw [he])
          (by
            rw [show i + 1 - i = 1 from by omega, maxStopRange_one, he]
            exact Nat.max_eq_right (Nat.le_trans hb (Nat.le_of_lt hewf)))
          hdead2
          (by
            intro k hk1 hk2
            rw [show k = i from by omega]
            exact Relation.ReflTransGen.refl)
        rw [List.mem_append, hrec m]
        have hbound : ∀ q, b + (i - b) ≤ q → q < es.length →
            maxStopRange es b (i - b) ≤ (es.getD q dEnt).start := by
          intro q hq1 hq2
          have h2 : (es.getD i dEnt).start ≤ (es.getD q dEnt).start :=
            sorted_start_le2 es hsort i q (by omega) hq2
          rw [he] at h2
          rw [← hcur]
          omega
        have hcw := comp_window es hsort hwf b (i - b) (by omega) hdead
          hbound (fun k hk1 hk2 => hconn k hk1 (by omega))
        subst hcluster
        by_cases hc : 1 < i - b
        · rw [if_pos (by rw [List.length_map, List.length_range']; omega)]
          simp only [List.flatMap_cons, List.flatMap_nil, List.append_nil]
          constructor
          · rintro (hmem | ⟨h1, h2, h3⟩)
            · obtain ⟨h1, h2, h3⟩ := (mem_pickShort es b (i - b) m).1 hmem
              have hlt : entLen es m < maxLenRange es b (i - b) :=
                Nat.lt_of_le_of_ne (len_le_maxLenRange es b (i - b) m h1 h2) h3
              exact ⟨h1, by omega, (hcw m h1 h2).2 hlt⟩
            · exact ⟨by omega, h2, h3⟩
          · rintro ⟨h1, h2, h3⟩
            rcases Nat.lt_or_ge m i with hm | hm
            · refine Or.inl ?_
              have hm2 : m < b + (i - b) := by omega
              have hlt := (hcw m h1 hm2).1 h3
              exact (mem_pickShort es b (i - b) m).2 ⟨h1, hm2, by omega⟩
            · exact Or.inr ⟨hm, h2, h3⟩
        · rw [if_neg (by rw [List.length_map, List.length_range']; omega)]
          simp only [List.flatMap_nil, List.not_mem_nil, false_or]
          constructor
          · rintro ⟨h1, h2, h3⟩
            exact ⟨by omega, h2, h3⟩
          · rintro ⟨h1, h2, h3⟩
            rcases Nat.lt_or_ge m i with hm | hm
            · exfalso
              have hm2 : m < b + (i - b) := by omega
              have hlt := (hcw m h1 hm2).1 h3
              rw [show i - b = 1 from by omega, maxLenRange_one] at hlt
              have hmb : m = b := by omega
              subst hmb
              omega
            · exact ⟨hm, h2, h3⟩
      · -- no boundary: the entity joins the pending cluster
        rw [if_neg hb]
        push_neg at hb
        have hconn2 : ∀ k, b ≤ k → k < i + 1 → sameCluster es b k := by
          intro k hk1 hk2
          rcases Nat.lt_or_ge k i with hk3 | hk3
          · exact hconn k hk1 hk3
          · rw [show k = i from by omega]
            obtain ⟨p, hp1, hp2, hp3⟩ := maxStopRange_achieved es b (i - b)
              (by omega) (fun k2 hk21 hk22 => stop_pos es hwf k2 (by omega))
            have hstep : olapIdx es p i := by
              refine ⟨by omega, hi, ?_⟩
              unfold olapB
              simp only [decide_eq_true_eq]
              have hsp : (es.getD p dEnt).start ≤ (es.getD i dEnt).start :=
                sorted_start_le2 es hsort p i (by omega) hi
              rw [he] at hsp ⊢
              refine ⟨by omega, ?_⟩
              rw [hp3, ← hcur]
              exact hb
            exact Relation.ReflTransGen.tail (hconn p hp1 (by omega)) hstep
        have hrec := ih es b (i + 1) (max cur e.stop)
          ((List.range' b (i - b)).map (fun k => (k, entLen es k)) ++
            [(i, e.stop - e.start)])
          hdrop2.symm hsort hwf (by omega) (by omega)
          (by
            rw [show i + 1 - b = (i - b) + 1 from by omega,
              List.range'_1_concat, List.map_append,
              show b + (i - b) = i from by omega]
            simp only [List.map_cons, List.map_nil]
            unfold entLen
            rw [he])
          (by
            rw [show i + 1 - b = (i - b) + 1 from by omega, maxStopRange_succ,
              show b + (i - b) = i from by omega, he, ← hcur])
          hdead hconn2
        subst hcluster
        exact hrec m

/-- The generator _crossmatches yields, for a start-sorted well-formed
entity list, exactly the indices whose span is transitively connected
by character overlap to a strictly longer span. -/
theorem crossmatches_spec (es : List Ent) (hsort : es.Pairwise startLe)
    (hwf : ∀ a ∈ es, a.start < a.stop) (m : Nat) :
    m ∈ crossmatches es ↔
      (m < es.length ∧ ∃ j, sameCluster es m j ∧ entLen es m < entLen es j) := by
  match es, hsort, hwf with
  | [], _, _ =>
      simp [crossmatches, clustersFn, clustersAux]
  | e0 :: tl, hsort, hwf =>
      unfold crossmatches clustersFn
      have h0 : clustersAux [] 0 0 (e0 :: tl) =
          clustersAux [(0, e0.stop - e0.start)] (max 0 e0.stop) 1 tl := by
        simp only [clustersAux]
        rw [if_pos (Nat.zero_le _)]
        simp
      rw [h0]
      have h := clustersAux_spec tl (e0 :: tl) 0 1 (max 0 e0.stop)
        [(0, e0.stop - e0.start)] rfl hsort hwf (by omega) (by simp)
        (by simp [List.range', entLen])
        (by rw [maxStopRange_one]; simp)
        (by intro k hk1 hk2; omega)
        (by
          intro k hk1 hk2
          rw [show k = 0 from by omega]
          exact Relation.ReflTransGen.refl)
      rw [h m]
      constructor
      · rintro ⟨_, h2, h3⟩
        exact ⟨h2, h3⟩
      · rintro ⟨h2, h3⟩
        exact ⟨Nat.zero_le m, h2, h3⟩

/-- Claim C4: on a start-sorted entity list with well-formed offsets,
remove_overlaps partitions the entities into maximal transitively
overlapping clusters and removes exactly the entities connected to a
strictly longer span: length-tied maxima all survive, entities in
singleton clusters are never removed, and on the example list
the three spans chain into one cluster of which only the longest
survives. -/
theorem claim_C4_overlaps_cluster_maxima :
    (∀ es : List Ent, es.Pairwise startLe → (∀ a ∈ es, a.start < a.stop) →
      ∀ m, m ∈ crossmatches es ↔
        (m < es.length ∧
          ∃ j, sameCluster es m j ∧ entLen es m < entLen es j)) ∧
    remove_overlaps [⟨0, 10, "X"⟩, ⟨5, 9, "Y"⟩, ⟨9, 14, "Z"⟩] =
      [⟨0, 10, "X"⟩] :=
  ⟨crossmatches_spec, rfl⟩

/-- Witness for claim C4 on a concrete sorted well-formed list: the
shorter of two overlapping spans is reported as removable. -/
theorem claim_C4_witness :
    0 ∈ crossmatches [⟨0, 3, "X"⟩, ⟨1, 9, "Y"⟩] ↔
      (0 < ([⟨0, 3, "X"⟩, ⟨1, 9, "Y"⟩] : List Ent).length ∧
        ∃ j, sameCluster [⟨0, 3, "X"⟩, ⟨1, 9, "Y"⟩] 0 j ∧
          entLen [⟨0, 3, "X"⟩, ⟨1, 9, "Y"⟩] 0 <
            entLen [⟨0, 3, "X"⟩, ⟨1, 9, "Y"⟩] j) :=
  claim_C4_overlaps_cluster_maxima.1 [⟨0, 3, "X"⟩, ⟨1, 9, "Y"⟩]
    (by decide) (by decide) 0

end OGER
